import Mathlib

/-!
# Verification of the vocabulator quiz/spaced-repetition core

Shallow embedding of the core of `druvus/vocabulator` (files `database.py`,
`quiz.py`, `app.py`) and proofs about the claims of its specification.

Modelling conventions:
* SQLite tables become Lean lists of rows; the `user_progress` table, whose
  primary key is `(user_id, group_id)`, is modelled as a partial map from the
  key to the non-key columns `(box, due_date)`.
* Timestamps are integers measured in days, so the Python
  `timedelta(days=2 ** box)` becomes the integer `2 ^ box`.
* `random.shuffle` is modelled by an explicit reordering function supplied as
  an argument; theorems hypothesise that it produces a permutation of its
  input.  `random.choice([True, False])` becomes an explicit `Bool` argument.
* Python functions that may raise return `Except String`; the payload of
  `.error` is the exception message.
* The SQL expression `CAST(correct_count AS FLOAT) / total_count < threshold`
  is modelled by exact rational arithmetic over `ℚ`.
-/

namespace Vocabulator

/-- A row of the `vocab_items` table (with the language denormalised to its
name, as produced by the join in `Database.fetch_group_words`). -/
structure VocabRow where
  group_id : Nat
  language : String
  word : String
deriving DecidableEq, Repr

/-- A row of the `quiz_sessions` table. `user_id` is nullable. -/
structure SessionRow where
  id : Nat
  set_id : Nat
  user_id : Option Nat
  time : Int
deriving DecidableEq, Repr

/-- A row of the `quiz_answers` table (columns used by the statistics
queries). `correct` is stored as 0/1 in SQLite; we keep it as `Bool`. -/
structure AnswerRow where
  session_id : Nat
  group_id : Nat
  correct : Bool
deriving DecidableEq, Repr

/-- The `user_progress` table.  Its primary key is `(user_id, group_id)`, so
the table is exactly a partial map from that key to `(box, due_date)`. -/
def ProgressTable : Type := Nat × Nat → Option (Nat × Int)

/-- The persistent state of `database.py` that the verified core reads. -/
structure DB where
  /-- `set_groups` rows as `(set_id, group_id)` pairs. -/
  set_groups : List (Nat × Nat)
  /-- `vocab_items` joined with `languages`. -/
  vocab : List VocabRow
  /-- `quiz_sessions` rows. -/
  sessions : List SessionRow
  /-- `quiz_answers` rows. -/
  answers : List AnswerRow
  /-- `user_progress` table. -/
  progress : ProgressTable

/-- `Database.fetch_set_group_ids`: group ids of the rows of `set_groups`
whose `set_id` matches. -/
def fetch_set_group_ids (db : DB) (set_id : Nat) : List Nat :=
  (db.set_groups.filter (fun p => decide (p.1 = set_id))).map (fun p => p.2)

/-- `Database.fetch_group_words`: the language → word association of a group
(a Python dict; the schema's `UNIQUE (group_id, language_id)` makes the
keys distinct). -/
def fetch_group_words (db : DB) (group_id : Nat) : List (String × String) :=
  (db.vocab.filter (fun v => decide (v.group_id = group_id))).map
    (fun v => (v.language, v.word))

/-- Python dict lookup `words[lang]` / `lang in words` on the association
list returned by `fetch_group_words`. -/
def lookupWord (ws : List (String × String)) (lang : String) : Option String :=
  (ws.find? (fun p => decide (p.1 = lang))).map (fun p => p.2)

/-! ## Progress tracker (`Database.update_user_progress`, `get_due_groups`) -/

/-- `Database.update_user_progress`: Leitner update of the progress row for
`(user_id, group_id)`.  With an existing row, `box = min (box+1) 5` on a
correct answer and `0` otherwise; with no row, `box = 1` on a correct answer
and `0` otherwise.  In all cases `due_date = now + 2 ^ box` days. -/
def update_user_progress (p : ProgressTable) (user_id group_id : Nat)
    (correct : Bool) (now : Int) : ProgressTable :=
  fun k =>
    if k = (user_id, group_id) then
      match p (user_id, group_id) with
      | some (box, _) =>
          let b := if correct then min (box + 1) 5 else 0
          some (b, now + 2 ^ b)
      | none =>
          let b := if correct then 1 else 0
          some (b, now + 2 ^ b)
    else p k

/-- A sequence of answers for one `(user, group)` pair, each given with the
clock value at which it is recorded, folded through
`update_user_progress`. -/
def answerStreak (p : ProgressTable) (user_id group_id : Nat)
    (answers : List (Bool × Int)) : ProgressTable :=
  answers.foldl (fun q ab => update_user_progress q user_id group_id ab.1 ab.2) p

/-- `Database.get_due_groups`: groups of the set whose progress row is absent
or whose `due_date` is at or before `now` (`CURRENT_TIMESTAMP`). -/
def get_due_groups (db : DB) (set_id user_id : Nat) (now : Int) : List Nat :=
  (fetch_set_group_ids db set_id).filter (fun g =>
    match db.progress (user_id, g) with
    | none => true
    | some (_, due) => decide (due ≤ now))

/-! ## Statistics engine (`Database.get_problematic_groups`) -/

/-- The rows of the join `quiz_answers JOIN quiz_sessions` restricted by the
`WHERE` clause of `get_problematic_groups`: the session's set matches, the
session time is inside the optional recency window, and the session's user
matches the optional user filter (SQL `s.user_id = ?` rejects NULL). -/
def matchingAnswers (db : DB) (set_id : Nat) (since : Option Int)
    (user_id : Option Nat) : List (Nat × Bool) :=
  db.answers.flatMap (fun a =>
    (db.sessions.filter (fun s =>
        decide (s.id = a.session_id) && decide (s.set_id = set_id) &&
        (match since with
         | none => true
         | some cutoff => decide (cutoff ≤ s.time)) &&
        (match user_id with
         | none => true
         | some u => decide (s.user_id = some u)))).map
      (fun _ => (a.group_id, a.correct)))

/-- The SQL aggregate `COUNT(*)` for one group over the matching rows. -/
def groupTotalCount (db : DB) (set_id : Nat) (since : Option Int)
    (user_id : Option Nat) (g : Nat) : Nat :=
  ((matchingAnswers db set_id since user_id).filter
    (fun r => decide (r.1 = g))).length

/-- The SQL aggregate `SUM(a.correct)` for one group over the matching rows:
over 0/1 values this is the count of correct rows. -/
def groupCorrectCount (db : DB) (set_id : Nat) (since : Option Int)
    (user_id : Option Nat) (g : Nat) : Nat :=
  ((matchingAnswers db set_id since user_id).filter
    (fun r => decide (r.1 = g) && r.2)).length

/-- `Database.get_problematic_groups`: group by `group_id` over the matching
answer rows (`GROUP BY` yields each occurring group once) and keep the groups
whose correctness ratio is strictly below the threshold. -/
def get_problematic_groups (db : DB) (set_id : Nat) (threshold : ℚ)
    (since : Option Int) (user_id : Option Nat) : List Nat :=
  let rows := matchingAnswers db set_id since user_id
  ((rows.map (fun r => r.1)).dedup).filter (fun g =>
    decide ((groupCorrectCount db set_id since user_id g : ℚ) /
      (groupTotalCount db set_id since user_id g : ℚ) < threshold))

/-! ## Question selector (`Database.fetch_random_group_and_direction`) -/

/-- The selector's result tuple
`(group_id, source_language, source_word, target_language, target_word)`. -/
abbrev QResult : Type := Nat × String × String × String × String

/-- All ordered pairs of distinct positions of `langs`, i.e. the `options`
list built by the double loop `for i ... for j ... if i != j` in
`fetch_random_group_and_direction`.  The double loop produces every unordered
index pair in both orders; this recursion produces the same multiset, and the
list is immediately shuffled, so the enumeration order is irrelevant. -/
def orderedPairs : List String → List (String × String)
  | [] => []
  | l :: rest =>
      (rest.map (fun r => (l, r))) ++ (rest.map (fun r => (r, l))) ++
        orderedPairs rest

/-- The inner loop `for (src, tgt) in options`: return on the first pair with
both languages present in the group's words, swapping direction when `swap`
(i.e. `random_direction and languages and random.choice([True, False])`). -/
def scanOptions (ws : List (String × String)) (group_id : Nat) (swap : Bool) :
    List (String × String) → Option QResult
  | [] => none
  | (src, tgt) :: rest =>
      match lookupWord ws src, lookupWord ws tgt with
      | some sw, some tw =>
          if swap then some (group_id, tgt, tw, src, sw)
          else some (group_id, src, sw, tgt, tw)
      | some _, none => scanOptions ws group_id swap rest
      | none, some _ => scanOptions ws group_id swap rest
      | none, none => scanOptions ws group_id swap rest

/-- The outer loop `for group_id in group_ids` of
`fetch_random_group_and_direction`.  `pick g` is the shuffle applied to the
`options` list of group `g`; `coin g` is the direction coin for group `g`.
Python's `if languages:` is falsy both for `None` and for the empty list, so
`some []` takes the unconstrained branch; a list of length ≠ 2 (and ≠ 0)
raises `ValueError`, modelled as `.error`. -/
def scanGroups (db : DB) (languages : Option (List String))
    (random_direction : Bool)
    (pick : Nat → List (String × String) → List (String × String))
    (coin : Nat → Bool) : List Nat → Except String (Option QResult)
  | [] => .ok none
  | gid :: rest =>
      let ws := fetch_group_words db gid
      if ws = [] then
        scanGroups db languages random_direction pick coin rest
      else
        match languages with
        | some [lang1, lang2] =>
            if (lookupWord ws lang1).isNone || (lookupWord ws lang2).isNone then
              scanGroups db languages random_direction pick coin rest
            else
              match scanOptions ws gid (random_direction && coin gid)
                  (pick gid [(lang1, lang2)]) with
              | some r => .ok (some r)
              | none => scanGroups db languages random_direction pick coin rest
        | some [] =>
            let langs := ws.map (fun p => p.1)
            if langs.length < 2 then
              scanGroups db languages random_direction pick coin rest
            else
              match scanOptions ws gid false (pick gid (orderedPairs langs)) with
              | some r => .ok (some r)
              | none => scanGroups db languages random_direction pick coin rest
        | none =>
            let langs := ws.map (fun p => p.1)
            if langs.length < 2 then
              scanGroups db languages random_direction pick coin rest
            else
              match scanOptions ws gid false (pick gid (orderedPairs langs)) with
              | some r => .ok (some r)
              | none => scanGroups db languages random_direction pick coin rest
        | some _ => .error ("languages must be a list of exactly two names")

/-- The candidate pool of the selector: the set's groups, restricted to
`allowed_group_ids` when that argument is given. -/
def candidatePool (db : DB) (set_id : Nat) (allowed : Option (List Nat)) :
    List Nat :=
  let gids := fetch_set_group_ids db set_id
  match allowed with
  | some a => gids.filter (fun g => decide (g ∈ a))
  | none => gids

/-- `Database.fetch_random_group_and_direction`.  `shuffle` models
`random.shuffle(group_ids)`. -/
def fetch_random_group_and_direction (db : DB) (set_id : Nat)
    (languages : Option (List String)) (random_direction : Bool)
    (allowed : Option (List Nat)) (shuffle : List Nat → List Nat)
    (pick : Nat → List (String × String) → List (String × String))
    (coin : Nat → Bool) : Except String (Option QResult) :=
  let gids := candidatePool db set_id allowed
  if gids = [] then .ok none
  else scanGroups db languages random_direction pick coin (shuffle gids)

/-- `quiz.Question`. -/
structure Question where
  set_id : Nat
  group_id : Nat
  source_language : String
  source_word : String
  target_language : String
  target_word : String
deriving DecidableEq, Repr

/-- `Quiz.generate_question`: wrap the selector's tuple into a `Question`,
propagating `None` and exceptions unchanged. -/
def generate_question (db : DB) (set_id : Nat)
    (languages : Option (List String)) (random_direction : Bool)
    (allowed : Option (List Nat)) (shuffle : List Nat → List Nat)
    (pick : Nat → List (String × String) → List (String × String))
    (coin : Nat → Bool) : Except String (Option Question) :=
  match fetch_random_group_and_direction db set_id languages random_direction
      allowed shuffle pick coin with
  | .error e => .error e
  | .ok none => .ok none
  | .ok (some (gid, sl, sw, tl, tw)) =>
      .ok (some ⟨set_id, gid, sl, sw, tl, tw⟩)

/-! ## Distractors (`Database.get_distractors`) -/

/-- The collection loop of `get_distractors`: walk the (shuffled) candidate
group ids, appending each group's target-language word when it is new, and
stop as soon as `num_choices` words have been collected.  The length check
runs after the append, exactly as in the Python loop. -/
def collectDistractors (db : DB) (target_language : String)
    (num_choices : Nat) : List Nat → List String → List String
  | [], acc => acc
  | gid :: rest, acc =>
      let acc' :=
        match lookupWord (fetch_group_words db gid) target_language with
        | some w => if w ∈ acc then acc else acc ++ [w]
        | none => acc
      if num_choices ≤ acc'.length then acc'
      else collectDistractors db target_language num_choices rest acc'

/-- `Database.get_distractors`: shuffle the set's groups minus the excluded
one, then collect up to `num_choices` distinct target-language words. -/
def get_distractors (db : DB) (set_id exclude_group_id : Nat)
    (target_language : String) (num_choices : Nat)
    (shuffle : List Nat → List Nat) : List String :=
  let gids := (fetch_set_group_ids db set_id).filter
    (fun g => decide (g ≠ exclude_group_id))
  collectDistractors db target_language num_choices (shuffle gids) []

/-- The multiple-choice option list built in `app.quiz_start` /
`app.quiz_question`: `options = distractors + [q.target_word]` (shuffled
afterwards, which does not change multiplicities). -/
def mc_options (distractors : List String) (target_word : String) :
    List String :=
  distractors ++ [target_word]

/-! ## Answer grading (`quiz.Question.check_answer`, `app.quiz_question`) -/

/-- Python `str.strip()`: drop leading and trailing whitespace (modelled
over the character list with the core whitespace class). -/
def pyStrip (s : String) : String :=
  String.mk (((s.data.dropWhile Char.isWhitespace).reverse.dropWhile
    Char.isWhitespace).reverse)

/-- Python `str.lower()` (modelled with `Char.toLower`, the ASCII case
map). -/
def pyLower (s : String) : String :=
  String.mk (s.data.map Char.toLower)

/-- `Question.check_answer` in `quiz.py`:
`answer.strip().lower() == self.target_word.strip().lower()`. -/
def check_answer (q : Question) (answer : String) : Bool :=
  pyLower (pyStrip answer) == pyLower (pyStrip q.target_word)

/-- Typed-mode grading in `app.quiz_question`: the submitted answer is
stripped by `request.form.get("answer", "").strip()` and then compared by
`user_input.lower() == current_q["tgt_word"].lower()` (the target is not
stripped). -/
def grade_typed (answer target_word : String) : Bool :=
  pyLower (pyStrip answer) == pyLower target_word

/-- Choice-mode grading in `app.quiz_question`: the submitted choice is
stripped and compared for exact equality with the target word. -/
def grade_choice (choice target_word : String) : Bool :=
  pyStrip choice == target_word

/-- Spec-side definition (for comparison with the code): case-insensitive
equality of two strings, with no whitespace normalisation. -/
def specCaseInsensitiveEq (a b : String) : Bool :=
  pyLower a == pyLower b

/-! ## Quiz-session orchestration (`app.quiz_question`, lines 303-319) -/

/-- The final normalisation in the recompute block of `app.quiz_question`:
`if allowed is not None and len(allowed) == 0: allowed = None`. -/
def collapse_empty (o : Option (List Nat)) : Option (List Nat) :=
  match o with
  | some l => if l.length = 0 then none else some l
  | none => none

/-- The recomputation of the allowed-group restriction after an answer when
`spaced_repetition` is active.  `db.get_due_groups(set_id, uid) if uid else
None`: Python truthiness makes both `None` and `0` skip the due query.  When
`problem_only` is set the due set is intersected with
`get_problematic_groups(set_id)` (defaults: threshold `0.7`, no recency or
user filter).  An empty (non-`None`) result is relaxed to `None`. -/
def recompute_allowed (db : DB) (set_id : Nat) (uid : Option Nat)
    (problem_only : Bool) (now : Int) : Option (List Nat) :=
  let due_groups : Option (List Nat) :=
    match uid with
    | some u => if u = 0 then none else some (get_due_groups db set_id u now)
    | none => none
  let allowed : Option (List Nat) :=
    if problem_only then
      let prob := get_problematic_groups db set_id (7 / 10 : ℚ) none none
      match due_groups with
      | some d => some (d.filter (fun g => decide (g ∈ prob)))
      | none => some prob
    else due_groups
  collapse_empty allowed

/-- The part of the per-answer quiz state relevant to the restriction
recomputation. -/
structure QuizState where
  set_id : Nat
  spaced : Bool
  problem_only : Bool
  allowed_groups : Option (List Nat)

/-- The `allowed_groups` field of the session state after an answer is
processed: recomputed via `recompute_allowed` when `spaced` is set, otherwise
left unchanged (`app.quiz_question`, the block guarded by
`if quiz_state.get("spaced")`). -/
def update_allowed_after_answer (db : DB) (st : QuizState) (uid : Option Nat)
    (now : Int) : Option (List Nat) :=
  if st.spaced then recompute_allowed db st.set_id uid st.problem_only now
  else st.allowed_groups

/-! ## Concrete example databases used by witnesses and counterexamples -/

/-- A database with one set (id 1) containing one group (id 1) whose only
word is Swedish `hund`. -/
def dbOneSv : DB :=
  { set_groups := [(1, 1)]
  , vocab := [⟨1, "sv", "hund"⟩]
  , sessions := []
  , answers := []
  , progress := fun _ => none }

/-- A database whose single group has an empty Swedish word and the English
word `dog`. -/
def dbEmptyWord : DB :=
  { set_groups := [(1, 1)]
  , vocab := [⟨1, "sv", ""⟩, ⟨1, "en", "dog"⟩]
  , sessions := []
  , answers := []
  , progress := fun _ => none }

/-- A database with one set containing one group with the words
`sv: hund` / `en: dog`. -/
def dbPair : DB :=
  { set_groups := [(1, 1)]
  , vocab := [⟨1, "sv", "hund"⟩, ⟨1, "en", "dog"⟩]
  , sessions := []
  , answers := []
  , progress := fun _ => none }

/-- A database with no sets, groups or history at all. -/
def dbEmpty : DB :=
  { set_groups := []
  , vocab := []
  , sessions := []
  , answers := []
  , progress := fun _ => none }

/-- A database where set 1 has two groups that share the English word
`dog`. -/
def dbDupWord : DB :=
  { set_groups := [(1, 1), (1, 2)]
  , vocab := [⟨1, "sv", "hund"⟩, ⟨1, "en", "dog"⟩,
              ⟨2, "sv", "valp"⟩, ⟨2, "en", "dog"⟩]
  , sessions := []
  , answers := []
  , progress := fun _ => none }

/-- A database with one quiz session for set 1 and a single incorrect answer
for group 9. -/
def dbOneAnswer : DB :=
  { set_groups := [(1, 9)]
  , vocab := []
  , sessions := [⟨1, 1, none, 0⟩]
  , answers := [⟨1, 9, false⟩]
  , progress := fun _ => none }

/-! ## Claim C1: the Leitner update rule -/

section LeitnerLemmas

/-- Reading the updated progress table at the updated key. -/
theorem update_user_progress_at_key (p : ProgressTable) (u g : Nat)
    (c : Bool) (now : Int) :
    update_user_progress p u g c now (u, g) =
      match p (u, g) with
      | some (box, _) =>
          let b := if c then min (box + 1) 5 else 0
          some (b, now + 2 ^ b)
      | none =>
          let b := if c then 1 else 0
          some (b, now + 2 ^ b) := by
  simp [update_user_progress]

/-- Unfolding one step of `answerStreak`. -/
theorem answerStreak_cons (p : ProgressTable) (u g : Nat) (c : Bool) (t : Int)
    (rest : List (Bool × Int)) :
    answerStreak p u g ((c, t) :: rest) =
      answerStreak (update_user_progress p u g c t) u g rest := rfl

/-- Folding a nonempty streak of correct answers from an existing row with
box `box` yields box `min (box + length) 5`, due at the last answer time plus
`2 ^ box'` days. -/
theorem answerStreak_from_some (ts : List Int) :
    ∀ (p : ProgressTable) (u g box : Nat) (d tN : Int),
      p (u, g) = some (box, d) → ts.getLast? = some tN →
      answerStreak p u g (ts.map fun t => (true, t)) (u, g)
        = some (min (box + ts.length) 5,
            tN + 2 ^ min (box + ts.length) 5) := by
  induction ts with
  | nil => intro p u g box d tN _ hlast; simp at hlast
  | cons t rest ih =>
    intro p u g box d tN hp hlast
    have hstep :
        update_user_progress p u g true t (u, g)
          = some (min (box + 1) 5, t + 2 ^ min (box + 1) 5) := by
      rw [update_user_progress_at_key, hp]
      simp
    cases rest with
    | nil =>
      simp only [List.getLast?_singleton, Option.some.injEq] at hlast
      subst hlast
      rw [List.map_cons, List.map_nil, answerStreak_cons]
      simpa [answerStreak, List.length_cons] using hstep
    | cons r rest' =>
      have hlast' : (r :: rest').getLast? = some tN := by
        simpa [List.getLast?_cons_cons] using hlast
      have ihres := ih (update_user_progress p u g true t) u g
        (min (box + 1) 5) (t + 2 ^ min (box + 1) 5) tN hstep hlast'
      have hmin : min (min (box + 1) 5 + (r :: rest').length) 5
          = min (box + (t :: r :: rest').length) 5 := by
        simp only [List.length_cons]
        omega
      rw [List.map_cons, answerStreak_cons, ihres, hmin]

end LeitnerLemmas

/-- C1.  `update_user_progress` implements the Leitner rule: with no existing
record the box becomes 1 on a correct answer; on an incorrect answer the box
becomes 0 whether or not a record exists; with an existing record the box
becomes `min (box + 1) 5` on a correct answer; in every case the due date is
`now + 2 ^ box'` days for the new box `box'`.  After `N` consecutive correct
answers starting with no record the box is `min N 5` and the due date is the
final answer time plus `2 ^ min N 5` days. -/
theorem leitner_update_rule (p : ProgressTable) (u g : Nat) (now : Int) :
    (p (u, g) = none →
      update_user_progress p u g true now (u, g) = some (1, now + 2)) ∧
    (update_user_progress p u g false now (u, g) = some (0, now + 1)) ∧
    (∀ box d, p (u, g) = some (box, d) →
      update_user_progress p u g true now (u, g)
        = some (min (box + 1) 5, now + 2 ^ min (box + 1) 5)) ∧
    (∀ (ts : List Int) (tN : Int), p (u, g) = none → ts.getLast? = some tN →
      answerStreak p u g (ts.map fun t => (true, t)) (u, g)
        = some (min ts.length 5, tN + 2 ^ min ts.length 5)) := by
  refine ⟨?_, ?_, ?_, ?_⟩
  · intro hp
    rw [update_user_progress_at_key, hp]
    norm_num
  · rw [update_user_progress_at_key]
    cases hp : p (u, g) with
    | none => norm_num
    | some v => norm_num
  · intro box d hp
    rw [update_user_progress_at_key, hp]
    simp
  · intro ts tN hp hlast
    cases ts with
    | nil => simp at hlast
    | cons t rest =>
      have hstep : update_user_progress p u g true t (u, g)
          = some (1, t + 2) := by
        rw [update_user_progress_at_key, hp]; norm_num
      cases rest with
      | nil =>
        simp only [List.getLast?_singleton, Option.some.injEq] at hlast
        subst hlast
        rw [List.map_cons, List.map_nil, answerStreak_cons]
        simpa [answerStreak] using hstep
      | cons r rest' =>
        have hlast' : (r :: rest').getLast? = some tN := by
          simpa [List.getLast?_cons_cons] using hlast
        have hres := answerStreak_from_some (r :: rest')
          (update_user_progress p u g true t) u g 1 (t + 2) tN hstep hlast'
        have hmin : min (1 + (r :: rest').length) 5
            = min (t :: r :: rest').length 5 := by
          simp only [List.length_cons]
          omega
        rw [List.map_cons, answerStreak_cons, hres, hmin]

/-- Witness for C1: from a cold start, one correct answer at time 0 gives
box 1 due at 2, and three correct answers at times 0, 0, 0 give box 3 due at
8 (`2 ^ 3` days after the last answer). -/
theorem leitner_update_rule_witness :
    update_user_progress (fun _ => none) 0 0 true 0 (0, 0) = some (1, 2) ∧
    answerStreak (fun _ => none) 0 0
        ([0, 0, 0].map fun t => ((true : Bool), t)) (0, 0) = some (3, 8) := by
  constructor
  · exact (leitner_update_rule (fun _ => none) 0 0 0).1 rfl
  · have h := (leitner_update_rule (fun _ => none) 0 0 0).2.2.2
      [0, 0, 0] 0 rfl rfl
    norm_num at h
    exact h

/-! ## Claim C3: due groups -/

/-- C3.  `get_due_groups` returns exactly the groups of the set whose
progress row for the user is absent or has a due date at or before `now`;
for a user with no progress rows at all it returns the full group list of
the set. -/
theorem due_groups_exact (db : DB) (set_id user_id : Nat) (now : Int)
    (g : Nat) :
    (g ∈ get_due_groups db set_id user_id now ↔
      g ∈ fetch_set_group_ids db set_id ∧
        (db.progress (user_id, g) = none ∨
          ∃ b d, db.progress (user_id, g) = some (b, d) ∧ d ≤ now)) ∧
    ((∀ g', db.progress (user_id, g') = none) →
      get_due_groups db set_id user_id now = fetch_set_group_ids db set_id) := by
  constructor
  · rw [get_due_groups, List.mem_filter]
    cases hp : db.progress (user_id, g) with
    | none => simp [hp]
    | some v =>
      obtain ⟨b, d⟩ := v
      simp only [hp, decide_eq_true_eq, reduceCtorEq, false_or,
        Option.some.injEq, Prod.mk.injEq]
      constructor
      · rintro ⟨hin, hd⟩
        exact ⟨hin, b, d, ⟨rfl, rfl⟩, hd⟩
      · rintro ⟨hin, b1, d1, ⟨hb, hd⟩, h⟩
        subst hd
        exact ⟨hin, h⟩
  · intro h
    apply List.filter_eq_self.mpr
    intro a _
    rw [h a]

/-- Witness for C3: on a store with two groups in set 1 and an empty
progress table, every group of the set is due. -/
theorem due_groups_exact_witness :
    get_due_groups dbDupWord 1 7 0 = fetch_set_group_ids dbDupWord 1 :=
  (due_groups_exact dbDupWord 1 7 0 0).2 (fun _ => rfl)

/-! ## Claim C4: problematic groups -/

/-- C4.  `get_problematic_groups` returns exactly the groups with at least
one answer row matching the set and the optional recency/user filters and
whose correctness ratio over those rows is strictly below the threshold
(the SQL float division is modelled exactly over `ℚ`); a group with no
matching answers never appears, and no group appears twice. -/
theorem problematic_groups_exact (db : DB) (set_id : Nat) (threshold : ℚ)
    (since : Option Int) (user_id : Option Nat) (g : Nat) :
    (g ∈ get_problematic_groups db set_id threshold since user_id ↔
      0 < groupTotalCount db set_id since user_id g ∧
        (groupCorrectCount db set_id since user_id g : ℚ) /
          (groupTotalCount db set_id since user_id g : ℚ) < threshold) ∧
    (groupTotalCount db set_id since user_id g = 0 →
      g ∉ get_problematic_groups db set_id threshold since user_id) ∧
    (get_problematic_groups db set_id threshold since user_id).Nodup := by
  have hmem : g ∈ get_problematic_groups db set_id threshold since user_id ↔
      0 < groupTotalCount db set_id since user_id g ∧
        (groupCorrectCount db set_id since user_id g : ℚ) /
          (groupTotalCount db set_id since user_id g : ℚ) < threshold := by
    rw [get_problematic_groups, List.mem_filter, List.mem_dedup]
    constructor
    · rintro ⟨hin, hratio⟩
      rw [decide_eq_true_eq] at hratio
      refine ⟨?_, hratio⟩
      rw [groupTotalCount, ← List.countP_eq_length_filter, List.countP_pos_iff]
      rw [List.mem_map] at hin
      obtain ⟨r, hr, hfst⟩ := hin
      exact ⟨r, hr, by simp [hfst]⟩
    · rintro ⟨hpos, hratio⟩
      rw [groupTotalCount, ← List.countP_eq_length_filter,
        List.countP_pos_iff] at hpos
      obtain ⟨r, hr, hp⟩ := hpos
      rw [decide_eq_true_eq] at hp
      exact ⟨List.mem_map.mpr ⟨r, hr, hp⟩, by simpa using hratio⟩
  refine ⟨hmem, ?_, ?_⟩
  · intro hzero hg
    have := (hmem.mp hg).1
    omega
  · rw [get_problematic_groups]
    exact (List.nodup_dedup _).filter _

/-- Witness for C4: in a store whose only answer row concerns group 9,
group 3 has no matching answers and is not classified as problematic. -/
theorem problematic_groups_exact_witness :
    3 ∉ get_problematic_groups dbOneAnswer 1 (7 / 10 : ℚ) none none :=
  (problematic_groups_exact dbOneAnswer 1 (7 / 10 : ℚ) none none 3).2.1 rfl

/-! ## Claim C5: mid-session recomputation of the allowed groups -/

/-- `collapse_empty` never produces an empty restriction. -/
theorem collapse_empty_ne_nil (o : Option (List Nat)) (l : List Nat)
    (h : collapse_empty o = some l) : l ≠ [] := by
  rcases o with _ | l'
  · simp [collapse_empty] at h
  · simp only [collapse_empty] at h
    by_cases hlen : l'.length = 0
    · rw [if_pos hlen] at h
      exact absurd h (by simp)
    · rw [if_neg hlen] at h
      cases h
      intro hnil
      rw [hnil] at hlen
      exact hlen rfl

/-- `collapse_empty` on a present list relaxes exactly the empty list. -/
theorem collapse_empty_some (l : List Nat) :
    collapse_empty (some l) = if l = [] then none else some l := by
  simp only [collapse_empty]
  by_cases h : l = []
  · simp [h]
  · rw [if_neg h, if_neg (fun hl => h (List.length_eq_zero.mp hl))]

/-- `recompute_allowed` never returns `some []`. -/
theorem recompute_allowed_ne_nil (db : DB) (set_id : Nat) (uid : Option Nat)
    (problem_only : Bool) (now : Int) (l : List Nat)
    (h : recompute_allowed db set_id uid problem_only now = some l) :
    l ≠ [] := by
  unfold recompute_allowed at h
  exact collapse_empty_ne_nil _ _ h

/-- Closed form of `recompute_allowed` for a present, nonzero user id. -/
theorem recompute_allowed_some_user (db : DB) (set_id u : Nat) (now : Int)
    (problem_only : Bool) (hu : u ≠ 0) :
    recompute_allowed db set_id (some u) problem_only now =
      collapse_empty (some (if problem_only then
        (get_due_groups db set_id u now).filter
          (fun g => decide (g ∈ get_problematic_groups db set_id
            (7 / 10 : ℚ) none none))
        else get_due_groups db set_id u now)) := by
  unfold recompute_allowed
  cases problem_only <;> simp [hu]

/-- C5.  With `spaced_repetition` active, the allowed-group restriction after
an answer is recomputed from the current due set (intersected with the
problematic set when `problem_only` is also set), and whenever the
recomputation yields an empty list the restriction is relaxed to `none`
(unrestricted) instead of being left empty: the stored restriction is never
`some []`. -/
theorem spaced_recompute_allowed (db : DB) (st : QuizState)
    (uid : Option Nat) (u : Nat) (now : Int) (hs : st.spaced = true) :
    (∀ l, update_allowed_after_answer db st uid now = some l → l ≠ []) ∧
    (uid = some u → u ≠ 0 → st.problem_only = true →
      update_allowed_after_answer db st uid now =
        (if (get_due_groups db st.set_id u now).filter
            (fun g => decide (g ∈ get_problematic_groups db st.set_id
              (7 / 10 : ℚ) none none)) = [] then none
         else some ((get_due_groups db st.set_id u now).filter
            (fun g => decide (g ∈ get_problematic_groups db st.set_id
              (7 / 10 : ℚ) none none))))) ∧
    (uid = some u → u ≠ 0 → st.problem_only = false →
      update_allowed_after_answer db st uid now =
        (if get_due_groups db st.set_id u now = [] then none
         else some (get_due_groups db st.set_id u now))) := by
  have hup : update_allowed_after_answer db st uid now =
      recompute_allowed db st.set_id uid st.problem_only now := by
    rw [update_allowed_after_answer, hs]
    simp
  refine ⟨?_, ?_, ?_⟩
  · intro l hl
    rw [hup] at hl
    exact recompute_allowed_ne_nil _ _ _ _ _ _ hl
  · rintro rfl hu hpo
    rw [hup, recompute_allowed_some_user db st.set_id u now st.problem_only hu,
      hpo, if_pos rfl, collapse_empty_some]
  · rintro rfl hu hpo
    rw [hup, recompute_allowed_some_user db st.set_id u now st.problem_only hu,
      hpo, collapse_empty_some]
    simp

/-- Witness for C5: on the empty store, after an answer in a spaced session
for user 7 with `problem_only` off, the recomputed due set is empty and the
restriction is relaxed to `none`. -/
theorem spaced_recompute_allowed_witness :
    update_allowed_after_answer dbEmpty ⟨1, true, false, none⟩ (some 7) 0
      = none := by
  have h := (spaced_recompute_allowed dbEmpty ⟨1, true, false, none⟩
    (some 7) 7 0 rfl).2.2 rfl (by omega) rfl
  simpa using h

/-! ## Claim C9: answer grading -/

/-- Counterexample to C9 as stated: in typed mode the submitted answer is
whitespace-stripped before grading, so the answer `" dog"` is graded correct
against the target `"dog"` although the two strings are not equal under
plain case-insensitive comparison. -/
theorem grading_counterexample :
    grade_typed (" dog") ("dog") = true ∧
    specCaseInsensitiveEq (" dog") ("dog") = false := by
  constructor <;> decide

/-- C9 as amended: typed-mode grading in the web app accepts exactly the
answers whose stripped form equals the target case-insensitively (the target
itself is not stripped); choice-mode grading accepts exactly the options
whose stripped form equals the target word verbatim; `Question.check_answer`
accepts exactly the answers whose stripped form equals the stripped target
case-insensitively. -/
theorem grading_rules (q : Question) (answer choice : String)
    (target_word : String) :
    (grade_typed answer target_word = true ↔
      pyLower (pyStrip answer) = pyLower target_word) ∧
    (grade_choice choice target_word = true ↔
      pyStrip choice = target_word) ∧
    (check_answer q answer = true ↔
      pyLower (pyStrip answer) = pyLower (pyStrip q.target_word)) := by
  refine ⟨?_, ?_, ?_⟩
  · rw [grade_typed, beq_iff_eq]
  · rw [grade_choice, beq_iff_eq]
  · rw [check_answer, beq_iff_eq]

/-! ## Claim C10: a distractor can equal the correct answer -/

/-- C10.  `get_distractors` excludes only the group id, never the word value:
in `dbDupWord` groups 1 and 2 share the English word `dog`, so with group 1
as the correct group the returned distractor list is `["dog"]`, string-equal
to the correct answer `dog`, and the multiple-choice option list
`distractors + [target_word]` contains `dog` twice. -/
theorem distractor_equals_correct_answer :
    get_distractors dbDupWord 1 1 ("en") 3 id = [("dog" : String)] ∧
    lookupWord (fetch_group_words dbDupWord 1) ("en") = some ("dog") ∧
    (mc_options (get_distractors dbDupWord 1 1 ("en") 3 id) ("dog")).count
      ("dog") = 2 := by
  refine ⟨rfl, rfl, rfl⟩

/-! ## Selector lemmas -/

section SelectorLemmas

/-- Whatever `scanOptions` returns carries the scanned group id, words looked
up in that group's word map, and a language pair taken (possibly flipped)
from the options list. -/
theorem scanOptions_sound (ws : List (String × String)) (gid : Nat)
    (swap : Bool) :
    ∀ (opts : List (String × String)) (g : Nat) (s sw t tw : String),
      scanOptions ws gid swap opts = some (g, s, sw, t, tw) →
      g = gid ∧ lookupWord ws s = some sw ∧ lookupWord ws t = some tw ∧
        ((s, t) ∈ opts ∨ (t, s) ∈ opts) := by
  intro opts
  induction opts with
  | nil =>
    intro g s sw t tw h
    simp [scanOptions] at h
  | cons p rest ih =>
    obtain ⟨src, tgt⟩ := p
    intro g s sw t tw h
    cases hsrc : lookupWord ws src with
    | some a =>
      cases htgt : lookupWord ws tgt with
      | some b =>
        simp only [scanOptions, hsrc, htgt] at h
        cases swap with
        | true =>
          simp only [if_pos, Option.some.injEq, Prod.mk.injEq] at h
          obtain ⟨hg, hs, hsw, ht, htw⟩ := h
          subst hg; subst hs; subst hsw; subst ht; subst htw
          exact ⟨rfl, htgt, hsrc, Or.inr (List.mem_cons_self _ _)⟩
        | false =>
          simp only [Bool.false_eq_true, if_false, Option.some.injEq,
            Prod.mk.injEq] at h
          obtain ⟨hg, hs, hsw, ht, htw⟩ := h
          subst hg; subst hs; subst hsw; subst ht; subst htw
          exact ⟨rfl, hsrc, htgt, Or.inl (List.mem_cons_self _ _)⟩
      | none =>
        simp only [scanOptions, hsrc, htgt] at h
        obtain ⟨hg, h1, h2, hmem⟩ := ih g s sw t tw h
        refine ⟨hg, h1, h2, ?_⟩
        rcases hmem with hm | hm
        · exact Or.inl (List.mem_cons_of_mem _ hm)
        · exact Or.inr (List.mem_cons_of_mem _ hm)
    | none =>
      cases htgt : lookupWord ws tgt with
      | some b =>
        simp only [scanOptions, hsrc, htgt] at h
        obtain ⟨hg, h1, h2, hmem⟩ := ih g s sw t tw h
        refine ⟨hg, h1, h2, ?_⟩
        rcases hmem with hm | hm
        · exact Or.inl (List.mem_cons_of_mem _ hm)
        · exact Or.inr (List.mem_cons_of_mem _ hm)
      | none =>
        simp only [scanOptions, hsrc, htgt] at h
        obtain ⟨hg, h1, h2, hmem⟩ := ih g s sw t tw h
        refine ⟨hg, h1, h2, ?_⟩
        rcases hmem with hm | hm
        · exact Or.inl (List.mem_cons_of_mem _ hm)
        · exact Or.inr (List.mem_cons_of_mem _ hm)

/-- Over a duplicate-free language list, every pair enumerated by
`orderedPairs` has distinct components. -/
theorem mem_orderedPairs_ne (langs : List String) :
    langs.Nodup → ∀ p ∈ orderedPairs langs, p.1 ≠ p.2 := by
  induction langs with
  | nil =>
    intro _ p hp
    simp [orderedPairs] at hp
  | cons a rest ih =>
    intro hnd p hp
    obtain ⟨hna, hnr⟩ := List.nodup_cons.mp hnd
    simp only [orderedPairs, List.mem_append, List.mem_map] at hp
    rcases hp with (⟨r, hr, rfl⟩ | ⟨r, hr, rfl⟩) | hp
    · intro he
      exact hna ((show a = r from he) ▸ hr)
    · intro he
      exact hna ((show r = a from he) ▸ hr)
    · exact ih hnr p hp

/-- Soundness of the unconstrained per-group scan over all ordered pairs of
the group's languages. -/
theorem unconstrainedScan_sound (db : DB) (g0 : Nat)
    (pick : Nat → List (String × String) → List (String × String))
    (hpick : ∀ g l, (pick g l).Perm l) (gid : Nat) (s sw t tw : String)
    (hscan : scanOptions (fetch_group_words db g0) g0 false
      (pick g0 (orderedPairs ((fetch_group_words db g0).map (fun p => p.1))))
      = some (gid, s, sw, t, tw)) :
    gid = g0 ∧ lookupWord (fetch_group_words db g0) s = some sw ∧
      lookupWord (fetch_group_words db g0) t = some tw ∧
      (((fetch_group_words db g0).map Prod.fst).Nodup → s ≠ t) := by
  obtain ⟨hg, h1, h2, hmem⟩ := scanOptions_sound _ _ _ _ _ _ _ _ _ hscan
  refine ⟨hg, h1, h2, ?_⟩
  intro hnd
  have hperm := hpick g0 (orderedPairs
    ((fetch_group_words db g0).map (fun p => p.1)))
  have hnd' : ((fetch_group_words db g0).map (fun p => p.1)).Nodup := by
    simpa using hnd
  rcases hmem with hm | hm
  · exact mem_orderedPairs_ne _ hnd' (s, t) (hperm.mem_iff.mp hm)
  · exact Ne.symm (mem_orderedPairs_ne _ hnd' (t, s) (hperm.mem_iff.mp hm))

/-- Soundness of the group scan: a returned question names a scanned group,
its words are that group's stored words, and the two languages are distinct
whenever the request has no (or an empty, or a two-distinct-languages)
language constraint and the group's word map has duplicate-free keys. -/
theorem scanGroups_sound (db : DB) (languages : Option (List String))
    (rdir : Bool)
    (pick : Nat → List (String × String) → List (String × String))
    (coin : Nat → Bool)
    (hpick : ∀ g l, (pick g l).Perm l) :
    ∀ (L : List Nat) (gid : Nat) (s sw t tw : String),
      scanGroups db languages rdir pick coin L = .ok (some (gid, s, sw, t, tw)) →
      gid ∈ L ∧ lookupWord (fetch_group_words db gid) s = some sw ∧
        lookupWord (fetch_group_words db gid) t = some tw ∧
        (((fetch_group_words db gid).map Prod.fst).Nodup →
          (languages = none ∨ languages = some []) → s ≠ t) ∧
        (∀ l1 l2, languages = some [l1, l2] → l1 ≠ l2 → s ≠ t) := by
  rcases languages with _ | ⟨_ | ⟨l1, _ | ⟨l2, _ | ⟨l3, ls3⟩⟩⟩⟩
  case none =>
    intro L
    induction L with
    | nil =>
      intro gid s sw t tw h
      simp [scanGroups] at h
    | cons g0 rest ih =>
      intro gid s sw t tw h
      simp only [scanGroups] at h
      by_cases hws : fetch_group_words db g0 = []
      · rw [if_pos hws] at h
        obtain ⟨hmem, h1, h2, h3, h4⟩ := ih gid s sw t tw h
        exact ⟨List.mem_cons_of_mem _ hmem, h1, h2, h3, h4⟩
      · rw [if_neg hws] at h
        by_cases hlen :
            ((fetch_group_words db g0).map (fun p => p.1)).length < 2
        · rw [if_pos hlen] at h
          obtain ⟨hmem, h1, h2, h3, h4⟩ := ih gid s sw t tw h
          exact ⟨List.mem_cons_of_mem _ hmem, h1, h2, h3, h4⟩
        · rw [if_neg hlen] at h
          cases hscan : scanOptions (fetch_group_words db g0) g0 false
              (pick g0 (orderedPairs
                ((fetch_group_words db g0).map (fun p => p.1)))) with
          | none =>
            rw [hscan] at h
            obtain ⟨hmem, h1, h2, h3, h4⟩ := ih gid s sw t tw h
            exact ⟨List.mem_cons_of_mem _ hmem, h1, h2, h3, h4⟩
          | some r =>
            rw [hscan] at h
            simp only [Except.ok.injEq, Option.some.injEq] at h
            subst h
            obtain ⟨hg, h1, h2, hne⟩ :=
              unconstrainedScan_sound db g0 pick hpick gid s sw t tw hscan
            subst hg
            exact ⟨List.mem_cons_self _ _, h1, h2, fun hnd _ => hne hnd,
              fun l1 l2 hc => absurd hc (by simp)⟩
  case some.nil =>
    intro L
    induction L with
    | nil =>
      intro gid s sw t tw h
      simp [scanGroups] at h
    | cons g0 rest ih =>
      intro gid s sw t tw h
      simp only [scanGroups] at h
      by_cases hws : fetch_group_words db g0 = []
      · rw [if_pos hws] at h
        obtain ⟨hmem, h1, h2, h3, h4⟩ := ih gid s sw t tw h
        exact ⟨List.mem_cons_of_mem _ hmem, h1, h2, h3, h4⟩
      · rw [if_neg hws] at h
        by_cases hlen :
            ((fetch_group_words db g0).map (fun p => p.1)).length < 2
        · rw [if_pos hlen] at h
          obtain ⟨hmem, h1, h2, h3, h4⟩ := ih gid s sw t tw h
          exact ⟨List.mem_cons_of_mem _ hmem, h1, h2, h3, h4⟩
        · rw [if_neg hlen] at h
          cases hscan : scanOptions (fetch_group_words db g0) g0 false
              (pick g0 (orderedPairs
                ((fetch_group_words db g0).map (fun p => p.1)))) with
          | none =>
            rw [hscan] at h
            obtain ⟨hmem, h1, h2, h3, h4⟩ := ih gid s sw t tw h
            exact ⟨List.mem_cons_of_mem _ hmem, h1, h2, h3, h4⟩
          | some r =>
            rw [hscan] at h
            simp only [Except.ok.injEq, Option.some.injEq] at h
            subst h
            obtain ⟨hg, h1, h2, hne⟩ :=
              unconstrainedScan_sound db g0 pick hpick gid s sw t tw hscan
            subst hg
            exact ⟨List.mem_cons_self _ _, h1, h2, fun hnd _ => hne hnd,
              fun l1 l2 hc => absurd hc (by simp)⟩
  case some.cons.nil =>
    -- languages = some [l1]: `ValueError` on the first group with words
    intro L
    induction L with
    | nil =>
      intro gid s sw t tw h
      simp [scanGroups] at h
    | cons g0 rest ih =>
      intro gid s sw t tw h
      simp only [scanGroups] at h
      by_cases hws : fetch_group_words db g0 = []
      · rw [if_pos hws] at h
        obtain ⟨hmem, h1, h2, h3, h4⟩ := ih gid s sw t tw h
        exact ⟨List.mem_cons_of_mem _ hmem, h1, h2, h3, h4⟩
      · rw [if_neg hws] at h
        exact absurd h (by simp)
  case some.cons.cons.nil =>
    -- languages = some [l1, l2]: the single-pair branch
    intro L
    induction L with
    | nil =>
      intro gid s sw t tw h
      simp [scanGroups] at h
    | cons g0 rest ih =>
      intro gid s sw t tw h
      simp only [scanGroups] at h
      by_cases hws : fetch_group_words db g0 = []
      · rw [if_pos hws] at h
        obtain ⟨hmem, h1, h2, h3, h4⟩ := ih gid s sw t tw h
        exact ⟨List.mem_cons_of_mem _ hmem, h1, h2, h3, h4⟩
      · rw [if_neg hws] at h
        cases hguard : (lookupWord (fetch_group_words db g0) l1).isNone
            || (lookupWord (fetch_group_words db g0) l2).isNone with
        | true =>
          rw [hguard] at h
          simp only [if_pos] at h
          obtain ⟨hmem, h1, h2, h3, h4⟩ := ih gid s sw t tw h
          exact ⟨List.mem_cons_of_mem _ hmem, h1, h2, h3, h4⟩
        | false =>
          rw [hguard] at h
          simp only [Bool.false_eq_true, if_false] at h
          cases hscan : scanOptions (fetch_group_words db g0) g0
              (rdir && coin g0) (pick g0 [(l1, l2)]) with
          | none =>
            rw [hscan] at h
            obtain ⟨hmem, h1, h2, h3, h4⟩ := ih gid s sw t tw h
            exact ⟨List.mem_cons_of_mem _ hmem, h1, h2, h3, h4⟩
          | some r =>
            rw [hscan] at h
            simp only [Except.ok.injEq, Option.some.injEq] at h
            subst h
            obtain ⟨hg, h1, h2, hmem⟩ :=
              scanOptions_sound _ _ _ _ _ _ _ _ _ hscan
            have hpl : pick g0 [(l1, l2)] = [(l1, l2)] :=
              List.perm_singleton.mp (hpick g0 [(l1, l2)])
            subst hg
            refine ⟨List.mem_cons_self _ _, h1, h2, ?_, ?_⟩
            · intro _ hcontra
              rcases hcontra with hc | hc <;> exact absurd hc (by simp)
            · intro l1' l2' heq hne
              simp only [Option.some.injEq, List.cons.injEq, and_true] at heq
              obtain ⟨he1, he2⟩ := heq
              subst he1; subst he2
              rw [hpl] at hmem
              rcases hmem with hm | hm
              · simp only [List.mem_singleton, Prod.mk.injEq] at hm
                obtain ⟨rfl, rfl⟩ := hm
                exact hne
              · simp only [List.mem_singleton, Prod.mk.injEq] at hm
                obtain ⟨rfl, rfl⟩ := hm
                exact Ne.symm hne
  case some.cons.cons.cons =>
    -- languages with three or more entries: `ValueError`
    intro L
    induction L with
    | nil =>
      intro gid s sw t tw h
      simp [scanGroups] at h
    | cons g0 rest ih =>
      intro gid s sw t tw h
      simp only [scanGroups] at h
      by_cases hws : fetch_group_words db g0 = []
      · rw [if_pos hws] at h
        obtain ⟨hmem, h1, h2, h3, h4⟩ := ih gid s sw t tw h
        exact ⟨List.mem_cons_of_mem _ hmem, h1, h2, h3, h4⟩
      · rw [if_neg hws] at h
        exact absurd h (by simp)

/-- With a well-formed language request (`None`, the empty list, or exactly
two names) the scan never raises. -/
theorem scanGroups_no_error (db : DB) (languages : Option (List String))
    (rdir : Bool)
    (pick : Nat → List (String × String) → List (String × String))
    (coin : Nat → Bool)
    (hok : ∀ ls, languages = some ls → ls = [] ∨ ls.length = 2) :
    ∀ L, ∃ o, scanGroups db languages rdir pick coin L = .ok o := by
  have hpairs : languages = none ∨ languages = some [] ∨
      ∃ a b, languages = some [a, b] := by
    rcases languages with _ | ls
    · exact Or.inl rfl
    · rcases hok ls rfl with rfl | hlen
      · exact Or.inr (Or.inl rfl)
      · rcases ls with _ | ⟨a, _ | ⟨b, _ | _⟩⟩ <;> simp_all
  clear hok
  rcases hpairs with rfl | rfl | ⟨a, b, rfl⟩
  · intro L
    induction L with
    | nil => exact ⟨none, rfl⟩
    | cons g0 rest ih =>
      simp only [scanGroups]
      by_cases hws : fetch_group_words db g0 = []
      · rw [if_pos hws]; exact ih
      · rw [if_neg hws]
        by_cases hlen :
            ((fetch_group_words db g0).map (fun p => p.1)).length < 2
        · rw [if_pos hlen]; exact ih
        · rw [if_neg hlen]
          cases hscan : scanOptions (fetch_group_words db g0) g0 false
              (pick g0 (orderedPairs
                ((fetch_group_words db g0).map (fun p => p.1)))) with
          | some r => exact ⟨some r, rfl⟩
          | none => exact ih
  · intro L
    induction L with
    | nil => exact ⟨none, rfl⟩
    | cons g0 rest ih =>
      simp only [scanGroups]
      by_cases hws : fetch_group_words db g0 = []
      · rw [if_pos hws]; exact ih
      · rw [if_neg hws]
        by_cases hlen :
            ((fetch_group_words db g0).map (fun p => p.1)).length < 2
        · rw [if_pos hlen]; exact ih
        · rw [if_neg hlen]
          cases hscan : scanOptions (fetch_group_words db g0) g0 false
              (pick g0 (orderedPairs
                ((fetch_group_words db g0).map (fun p => p.1)))) with
          | some r => exact ⟨some r, rfl⟩
          | none => exact ih
  · intro L
    induction L with
    | nil => exact ⟨none, rfl⟩
    | cons g0 rest ih =>
      simp only [scanGroups]
      by_cases hws : fetch_group_words db g0 = []
      · rw [if_pos hws]; exact ih
      · rw [if_neg hws]
        cases hguard : (lookupWord (fetch_group_words db g0) a).isNone
            || (lookupWord (fetch_group_words db g0) b).isNone with
        | true =>
          simp only [if_pos]
          exact ih
        | false =>
          simp only [Bool.false_eq_true, if_false]
          cases hscan : scanOptions (fetch_group_words db g0) g0
              (rdir && coin g0) (pick g0 [(a, b)]) with
          | some r => exact ⟨some r, rfl⟩
          | none => exact ih

/-- With a language list whose length is not 2 (and not 0), the scan raises
`ValueError` as soon as it reaches a group with a nonempty word map. -/
theorem scanGroups_error_of_malformed (db : DB) (l1 : String)
    (ls : List String) (rdir : Bool)
    (pick : Nat → List (String × String) → List (String × String))
    (coin : Nat → Bool) (hlen : (l1 :: ls).length ≠ 2) :
    ∀ L, (∃ g ∈ L, fetch_group_words db g ≠ []) →
      ∃ e, scanGroups db (some (l1 :: ls)) rdir pick coin L = .error e := by
  rcases ls with _ | ⟨a2, _ | ⟨a3, ls3⟩⟩
  · intro L
    induction L with
    | nil =>
      rintro ⟨g, hg, _⟩
      exact absurd hg (List.not_mem_nil g)
    | cons g0 rest ih =>
      rintro ⟨g, hg, hgw⟩
      simp only [scanGroups]
      by_cases hws : fetch_group_words db g0 = []
      · rw [if_pos hws]
        apply ih
        rcases List.mem_cons.mp hg with rfl | hgr
        · exact absurd hws hgw
        · exact ⟨g, hgr, hgw⟩
      · rw [if_neg hws]
        exact ⟨_, rfl⟩
  · exact absurd rfl hlen
  · intro L
    induction L with
    | nil =>
      rintro ⟨g, hg, _⟩
      exact absurd hg (List.not_mem_nil g)
    | cons g0 rest ih =>
      rintro ⟨g, hg, hgw⟩
      simp only [scanGroups]
      by_cases hws : fetch_group_words db g0 = []
      · rw [if_pos hws]
        apply ih
        rcases List.mem_cons.mp hg with rfl | hgr
        · exact absurd hws hgw
        · exact ⟨g, hgr, hgw⟩
      · rw [if_neg hws]
        exact ⟨_, rfl⟩

end SelectorLemmas

/-! ## Claim C2: soundness of the question selector -/

/-- Counterexample to C2 as stated.  First conjunct: with the degenerate
request `languages = ["sv", "sv"]` the selector returns a question whose
source and target languages are both `sv` — they are not distinct.  Second
conjunct: with no language constraint, a group with two populated languages
one of whose stored words is the empty string can be returned with an empty
source word, so "both words non-empty" does not hold either. -/
theorem selector_counterexample :
    fetch_random_group_and_direction dbOneSv 1 (some ["sv", "sv"]) false none
      id (fun _ l => l) (fun _ => false)
      = .ok (some (1, "sv", "hund", "sv", "hund")) ∧
    fetch_random_group_and_direction dbEmptyWord 1 none false none
      id (fun _ l => l) (fun _ => false)
      = .ok (some (1, "sv", "", "en", "dog")) := ⟨rfl, rfl⟩

/-- C2 as amended.  Whenever the selector returns a question: the group
belongs to the requested set and to `allowed_group_ids` when that is given;
the returned words are exactly the group's stored words for the returned
languages (hence both languages are populated in the group, and a group with
no pair satisfying the request is never returned); and the two languages are
distinct when no language constraint (or an empty one) is given, or when the
two requested languages are distinct.  (With a duplicated language request
the two returned languages coincide, and stored words may be empty strings:
non-emptiness is not checked.) -/
theorem selector_sound (db : DB) (set_id : Nat)
    (languages : Option (List String)) (rdir : Bool)
    (allowed : Option (List Nat)) (shuffle : List Nat → List Nat)
    (pick : Nat → List (String × String) → List (String × String))
    (coin : Nat → Bool)
    (hwf : ∀ g ∈ candidatePool db set_id allowed,
      ((fetch_group_words db g).map Prod.fst).Nodup)
    (hshuffle : (shuffle (candidatePool db set_id allowed)).Perm
      (candidatePool db set_id allowed))
    (hpick : ∀ g l, (pick g l).Perm l)
    (gid : Nat) (s sw t tw : String)
    (hres : fetch_random_group_and_direction db set_id languages rdir allowed
      shuffle pick coin = .ok (some (gid, s, sw, t, tw))) :
    gid ∈ fetch_set_group_ids db set_id ∧
    (∀ a, allowed = some a → gid ∈ a) ∧
    lookupWord (fetch_group_words db gid) s = some sw ∧
    lookupWord (fetch_group_words db gid) t = some tw ∧
    ((languages = none ∨ languages = some []) → s ≠ t) ∧
    (∀ l1 l2, languages = some [l1, l2] → l1 ≠ l2 → s ≠ t) := by
  simp only [fetch_random_group_and_direction] at hres
  by_cases hnil : candidatePool db set_id allowed = []
  · rw [if_pos hnil] at hres
    exact absurd hres (by simp)
  · rw [if_neg hnil] at hres
    obtain ⟨hmem', h1, h2, h3, h4⟩ :=
      scanGroups_sound db languages rdir pick coin hpick _ gid s sw t tw hres
    have hmem : gid ∈ candidatePool db set_id allowed :=
      hshuffle.mem_iff.mp hmem'
    have hnd := hwf gid hmem
    have hpool : gid ∈ fetch_set_group_ids db set_id ∧
        (∀ a, allowed = some a → gid ∈ a) := by
      rcases allowed with _ | a
      · exact ⟨hmem, fun a ha => by cases ha⟩
      · rw [candidatePool] at hmem
        simp only [List.mem_filter, decide_eq_true_eq] at hmem
        exact ⟨hmem.1, fun a' ha' => by cases ha'; exact hmem.2⟩
    exact ⟨hpool.1, hpool.2, h1, h2, fun hc => h3 hnd hc, h4⟩

/-- Witness for C2 (amended): on `dbPair` with no language constraint the
selector returns group 1 of set 1 with the stored words, and the returned
languages are distinct. -/
theorem selector_sound_witness :
    1 ∈ fetch_set_group_ids dbPair 1 ∧
    lookupWord (fetch_group_words dbPair 1) ("sv") = some ("hund") ∧
    (("sv" : String) ≠ ("en" : String)) := by
  have h := selector_sound dbPair 1 none false none id (fun _ l => l)
    (fun _ => false) (by decide) (by decide)
    (fun _ l => List.Perm.refl l) 1 ("sv") ("hund") ("en") ("dog") rfl
  exact ⟨h.1, h.2.2.1, h.2.2.2.2.1 (Or.inl rfl)⟩

/-- When every scanned group is empty or has fewer than two languages, the
unconstrained scan finds nothing. -/
theorem scanGroups_none_unconstrained (db : DB)
    (languages : Option (List String)) (rdir : Bool)
    (pick : Nat → List (String × String) → List (String × String))
    (coin : Nat → Bool)
    (hl : languages = none ∨ languages = some []) :
    ∀ L, (∀ g ∈ L, fetch_group_words db g = [] ∨
        ((fetch_group_words db g).map (fun p => p.1)).length < 2) →
      scanGroups db languages rdir pick coin L = .ok none := by
  rcases hl with rfl | rfl
  · intro L
    induction L with
    | nil => intro _; rfl
    | cons g0 rest ih =>
      intro hall
      simp only [scanGroups]
      by_cases hws : fetch_group_words db g0 = []
      · rw [if_pos hws]
        exact ih (fun g hg => hall g (List.mem_cons_of_mem _ hg))
      · rw [if_neg hws]
        rcases hall g0 (List.mem_cons_self _ _) with hws' | hlen
        · exact absurd hws' hws
        · rw [if_pos hlen]
          exact ih (fun g hg => hall g (List.mem_cons_of_mem _ hg))
  · intro L
    induction L with
    | nil => intro _; rfl
    | cons g0 rest ih =>
      intro hall
      simp only [scanGroups]
      by_cases hws : fetch_group_words db g0 = []
      · rw [if_pos hws]
        exact ih (fun g hg => hall g (List.mem_cons_of_mem _ hg))
      · rw [if_neg hws]
        rcases hall g0 (List.mem_cons_self _ _) with hws' | hlen
        · exact absurd hws' hws
        · rw [if_pos hlen]
          exact ih (fun g hg => hall g (List.mem_cons_of_mem _ hg))

/-- When every scanned group is empty or misses one of the two requested
languages, the constrained scan finds nothing. -/
theorem scanGroups_none_pair (db : DB) (l1 l2 : String) (rdir : Bool)
    (pick : Nat → List (String × String) → List (String × String))
    (coin : Nat → Bool) :
    ∀ L, (∀ g ∈ L, fetch_group_words db g = [] ∨
        lookupWord (fetch_group_words db g) l1 = none ∨
        lookupWord (fetch_group_words db g) l2 = none) →
      scanGroups db (some [l1, l2]) rdir pick coin L = .ok none := by
  intro L
  induction L with
  | nil => intro _; rfl
  | cons g0 rest ih =>
    intro hall
    simp only [scanGroups]
    by_cases hws : fetch_group_words db g0 = []
    · rw [if_pos hws]
      exact ih (fun g hg => hall g (List.mem_cons_of_mem _ hg))
    · rw [if_neg hws]
      have hguard : ((lookupWord (fetch_group_words db g0) l1).isNone
          || (lookupWord (fetch_group_words db g0) l2).isNone) = true := by
        rcases hall g0 (List.mem_cons_self _ _) with hws' | hl | hl
        · exact absurd hws' hws
        · simp [hl]
        · simp [hl]
      rw [hguard]
      simp only [if_pos]
      exact ih (fun g hg => hall g (List.mem_cons_of_mem _ hg))

/-! ## Claim C6: empty candidate pool yields no question, not an exception -/

/-- C6.  When the candidate pool is empty (the set has no groups, or its
intersection with `allowed_group_ids` is empty) the selector — and hence
`Quiz.generate_question` — returns `None`; for every well-formed language
request (`None`, or a list of zero or exactly two names, the shapes the
spec's error contract reserves for valid calls) the selector never raises;
and when no candidate group yields a valid language pair for a well-formed
request the result is again `None`, not an exception or a fabricated
answer. -/
theorem no_question_on_empty_pool (db : DB) (set_id : Nat)
    (languages : Option (List String)) (rdir : Bool)
    (allowed : Option (List Nat)) (shuffle : List Nat → List Nat)
    (pick : Nat → List (String × String) → List (String × String))
    (coin : Nat → Bool)
    (hshuffle : (shuffle (candidatePool db set_id allowed)).Perm
      (candidatePool db set_id allowed)) :
    (candidatePool db set_id allowed = [] →
      fetch_random_group_and_direction db set_id languages rdir allowed
        shuffle pick coin = .ok none ∧
      generate_question db set_id languages rdir allowed shuffle pick coin
        = .ok none) ∧
    ((∀ ls, languages = some ls → ls = [] ∨ ls.length = 2) →
      (∃ o, fetch_random_group_and_direction db set_id languages rdir allowed
        shuffle pick coin = .ok o) ∧
      (∃ q, generate_question db set_id languages rdir allowed shuffle pick
        coin = .ok q)) ∧
    ((languages = none ∨ languages = some []) →
      (∀ g ∈ candidatePool db set_id allowed, fetch_group_words db g = [] ∨
        ((fetch_group_words db g).map (fun p => p.1)).length < 2) →
      fetch_random_group_and_direction db set_id languages rdir allowed
        shuffle pick coin = .ok none) ∧
    (∀ l1 l2, languages = some [l1, l2] →
      (∀ g ∈ candidatePool db set_id allowed, fetch_group_words db g = [] ∨
        lookupWord (fetch_group_words db g) l1 = none ∨
        lookupWord (fetch_group_words db g) l2 = none) →
      fetch_random_group_and_direction db set_id languages rdir allowed
        shuffle pick coin = .ok none) := by
  have hgen : ∀ o, fetch_random_group_and_direction db set_id languages rdir
      allowed shuffle pick coin = .ok o →
      ∃ q, generate_question db set_id languages rdir allowed shuffle pick
        coin = .ok q := by
    intro o ho
    rcases o with _ | r
    · exact ⟨none, by simp only [generate_question, ho]⟩
    · obtain ⟨g, s, sw, t, tw⟩ := r
      exact ⟨some ⟨set_id, g, s, sw, t, tw⟩, by simp only [generate_question, ho]⟩
  refine ⟨?_, ?_, ?_, ?_⟩
  · intro hnil
    have h1 : fetch_random_group_and_direction db set_id languages rdir
        allowed shuffle pick coin = .ok none := by
      simp only [fetch_random_group_and_direction]
      rw [if_pos hnil]
    exact ⟨h1, by simp only [generate_question, h1]⟩
  · intro hok
    by_cases hnil : candidatePool db set_id allowed = []
    · have h1 : fetch_random_group_and_direction db set_id languages rdir
          allowed shuffle pick coin = .ok none := by
        simp only [fetch_random_group_and_direction]
        rw [if_pos hnil]
      exact ⟨⟨none, h1⟩, hgen none h1⟩
    · obtain ⟨o, ho⟩ := scanGroups_no_error db languages rdir pick coin hok
        (shuffle (candidatePool db set_id allowed))
      have h1 : fetch_random_group_and_direction db set_id languages rdir
          allowed shuffle pick coin = .ok o := by
        simp only [fetch_random_group_and_direction]
        rw [if_neg hnil]
        exact ho
      exact ⟨⟨o, h1⟩, hgen o h1⟩
  · intro hl hall
    by_cases hnil : candidatePool db set_id allowed = []
    · simp only [fetch_random_group_and_direction]
      rw [if_pos hnil]
    · simp only [fetch_random_group_and_direction]
      rw [if_neg hnil]
      exact scanGroups_none_unconstrained db languages rdir pick coin hl _
        (fun g hg => hall g (hshuffle.mem_iff.mp hg))
  · intro l1 l2 hl hall
    by_cases hnil : candidatePool db set_id allowed = []
    · simp only [fetch_random_group_and_direction]
      rw [if_pos hnil]
    · simp only [fetch_random_group_and_direction]
      rw [if_neg hnil, hl]
      exact scanGroups_none_pair db l1 l2 rdir pick coin _
        (fun g hg => hall g (hshuffle.mem_iff.mp hg))

/-- Witness for C6: the empty store yields `None` (not an exception); on
`dbPair` a well-formed unconstrained call returns without raising; and on
`dbOneSv` (one group holding only one language) the unconstrained call finds
no valid pair and returns `None`. -/
theorem no_question_on_empty_pool_witness :
    fetch_random_group_and_direction dbEmpty 1 none false none id
      (fun _ l => l) (fun _ => false) = .ok none ∧
    (∃ o, fetch_random_group_and_direction dbPair 1 none false none id
      (fun _ l => l) (fun _ => false) = .ok o) ∧
    fetch_random_group_and_direction dbOneSv 1 none false none id
      (fun _ l => l) (fun _ => false) = .ok none := by
  refine ⟨?_, ?_, ?_⟩
  · exact ((no_question_on_empty_pool dbEmpty 1 none false none id
      (fun _ l => l) (fun _ => false) (by decide)).1 rfl).1
  · exact ((no_question_on_empty_pool dbPair 1 none false none id
      (fun _ l => l) (fun _ => false) (by decide)).2.1
        (fun ls h => by cases h)).1
  · exact (no_question_on_empty_pool dbOneSv 1 none false none id
      (fun _ l => l) (fun _ => false) (by decide)).2.2.1 (Or.inl rfl)
        (by decide)

/-! ## Claim C7: malformed language requests -/

/-- Counterexample to C7 as stated: `languages = []` has "anything other
than exactly two entries", yet the call does not signal `ValueError` — the
Python guard `if languages:` treats the empty list like `None`, silently
coercing it to "no constraint" and returning an ordinary question. -/
theorem malformed_languages_counterexample :
    fetch_random_group_and_direction dbPair 1 (some []) false none id
      (fun _ l => l) (fun _ => false)
      = .ok (some (1, "sv", "hund", "en", "dog")) := rfl

/-- C7 as amended: a `languages` list that is non-empty and does not have
exactly two entries raises `ValueError`, provided the scan reaches a
candidate group with a nonempty word map (with an empty pool, or only
empty-word groups, the call instead returns `None`; an empty list is treated
as no constraint). -/
theorem malformed_languages_error (db : DB) (set_id : Nat) (l1 : String)
    (ls : List String) (rdir : Bool) (allowed : Option (List Nat))
    (shuffle : List Nat → List Nat)
    (pick : Nat → List (String × String) → List (String × String))
    (coin : Nat → Bool) (hlen : (l1 :: ls).length ≠ 2)
    (hshuffle : (shuffle (candidatePool db set_id allowed)).Perm
      (candidatePool db set_id allowed))
    (hex : ∃ g ∈ candidatePool db set_id allowed,
      fetch_group_words db g ≠ []) :
    ∃ e, fetch_random_group_and_direction db set_id (some (l1 :: ls)) rdir
      allowed shuffle pick coin = .error e := by
  have hnil : candidatePool db set_id allowed ≠ [] := by
    obtain ⟨g, hg, _⟩ := hex
    intro hn
    rw [hn] at hg
    exact absurd hg (List.not_mem_nil g)
  have hex' : ∃ g ∈ shuffle (candidatePool db set_id allowed),
      fetch_group_words db g ≠ [] := by
    obtain ⟨g, hg, hw⟩ := hex
    exact ⟨g, hshuffle.mem_iff.mpr hg, hw⟩
  obtain ⟨e, he⟩ := scanGroups_error_of_malformed db l1 ls rdir pick coin
    hlen _ hex'
  refine ⟨e, ?_⟩
  simp only [fetch_random_group_and_direction]
  rw [if_neg hnil]
  exact he

/-- Witness for C7 (amended): on `dbPair` the one-entry request `["sv"]`
raises `ValueError`. -/
theorem malformed_languages_error_witness :
    ∃ e, fetch_random_group_and_direction dbPair 1 (some ["sv"]) false none
      id (fun _ l => l) (fun _ => false) = .error e :=
  malformed_languages_error dbPair 1 ("sv") [] false none id (fun _ l => l)
    (fun _ => false) (by decide) (by decide) ⟨1, by decide, by decide⟩

/-! ## Claim C8: distractor collection -/

section DistractorLemmas

/-- A duplicate-free list whose elements all lie in `big` is no longer than
`big`'s number of distinct elements. -/
theorem nodup_length_lt_of_subset (num : Nat) (acc big : List String)
    (hnd : acc.Nodup) (hsub : ∀ x ∈ acc, x ∈ big)
    (hcard : big.toFinset.card < num) : acc.length < num := by
  have h1 : acc.toFinset.card = acc.length := List.toFinset_card_of_nodup hnd
  have h2 : acc.toFinset ⊆ big.toFinset := by
    intro x hx
    exact List.mem_toFinset.mpr (hsub x (List.mem_toFinset.mp hx))
  have h3 := Finset.card_le_card h2
  omega

/-- Distinct-element counts are monotone under list-membership inclusion. -/
theorem toFinset_card_le_of_subset (l1 l2 : List String)
    (h : ∀ x ∈ l1, x ∈ l2) : l1.toFinset.card ≤ l2.toFinset.card :=
  Finset.card_le_card
    (fun x hx => List.mem_toFinset.mpr (h x (List.mem_toFinset.mp hx)))

/-- Appending a fresh element keeps a list duplicate-free. -/
theorem nodup_append_single (l : List String) (a : String) (hnd : l.Nodup)
    (ha : a ∉ l) : (l ++ [a]).Nodup := by
  rw [List.nodup_append]
  refine ⟨hnd, List.nodup_singleton a, ?_⟩
  intro x hx hxa
  rw [List.mem_singleton] at hxa
  exact ha (hxa ▸ hx)

/-- The collection loop only ever appends to its accumulator. -/
theorem collectDistractors_mono (db : DB) (tl : String) (num : Nat) :
    ∀ (order : List Nat) (acc : List String) (w : String), w ∈ acc →
      w ∈ collectDistractors db tl num order acc := by
  intro order
  induction order with
  | nil =>
    intro acc w hw
    simpa [collectDistractors] using hw
  | cons g0 rest ih =>
    intro acc w hw
    simp only [collectDistractors]
    cases hl : lookupWord (fetch_group_words db g0) tl with
    | none =>
      simp only [hl]
      by_cases hb : num ≤ acc.length
      · rw [if_pos hb]; exact hw
      · rw [if_neg hb]; exact ih acc w hw
    | some v =>
      simp only [hl]
      by_cases hv : v ∈ acc
      · rw [if_pos hv]
        by_cases hb : num ≤ acc.length
        · rw [if_pos hb]; exact hw
        · rw [if_neg hb]; exact ih acc w hw
      · rw [if_neg hv]
        have hw' : w ∈ acc ++ [v] := List.mem_append_left _ hw
        by_cases hb : num ≤ (acc ++ [v]).length
        · rw [if_pos hb]; exact hw'
        · rw [if_neg hb]; exact ih _ w hw'

/-- Everything the collection loop returns came from the accumulator or is a
target-language word of a scanned group. -/
theorem collectDistractors_source (db : DB) (tl : String) (num : Nat) :
    ∀ (order : List Nat) (acc : List String) (w : String),
      w ∈ collectDistractors db tl num order acc →
      w ∈ acc ∨ ∃ g ∈ order, lookupWord (fetch_group_words db g) tl = some w := by
  intro order
  induction order with
  | nil =>
    intro acc w hw
    simp only [collectDistractors] at hw
    exact Or.inl hw
  | cons g0 rest ih =>
    intro acc w hw
    simp only [collectDistractors] at hw
    cases hl : lookupWord (fetch_group_words db g0) tl with
    | none =>
      rw [hl] at hw
      simp only at hw
      by_cases hb : num ≤ acc.length
      · rw [if_pos hb] at hw
        exact Or.inl hw
      · rw [if_neg hb] at hw
        rcases ih acc w hw with h | ⟨g, hg, hgw⟩
        · exact Or.inl h
        · exact Or.inr ⟨g, List.mem_cons_of_mem _ hg, hgw⟩
    | some v =>
      rw [hl] at hw
      simp only at hw
      by_cases hv : v ∈ acc
      · rw [if_pos hv] at hw
        by_cases hb : num ≤ acc.length
        · rw [if_pos hb] at hw
          exact Or.inl hw
        · rw [if_neg hb] at hw
          rcases ih acc w hw with h | ⟨g, hg, hgw⟩
          · exact Or.inl h
          · exact Or.inr ⟨g, List.mem_cons_of_mem _ hg, hgw⟩
      · rw [if_neg hv] at hw
        have split_acc : ∀ x, x ∈ acc ++ [v] → x ∈ acc ∨ x = v := by
          intro x hx
          rcases List.mem_append.mp hx with h | h
          · exact Or.inl h
          · exact Or.inr (List.mem_singleton.mp h)
        by_cases hb : num ≤ (acc ++ [v]).length
        · rw [if_pos hb] at hw
          rcases split_acc w hw with h | rfl
          · exact Or.inl h
          · exact Or.inr ⟨g0, List.mem_cons_self _ _, hl⟩
        · rw [if_neg hb] at hw
          rcases ih _ w hw with h | ⟨g, hg, hgw⟩
          · rcases split_acc w h with h' | rfl
            · exact Or.inl h'
            · exact Or.inr ⟨g0, List.mem_cons_self _ _, hl⟩
          · exact Or.inr ⟨g, List.mem_cons_of_mem _ hg, hgw⟩

/-- The collection loop preserves freedom from duplicates. -/
theorem collectDistractors_nodup (db : DB) (tl : String) (num : Nat) :
    ∀ (order : List Nat) (acc : List String), acc.Nodup →
      (collectDistractors db tl num order acc).Nodup := by
  intro order
  induction order with
  | nil =>
    intro acc hnd
    simpa [collectDistractors] using hnd
  | cons g0 rest ih =>
    intro acc hnd
    simp only [collectDistractors]
    cases hl : lookupWord (fetch_group_words db g0) tl with
    | none =>
      simp only [hl]
      by_cases hb : num ≤ acc.length
      · rw [if_pos hb]; exact hnd
      · rw [if_neg hb]; exact ih acc hnd
    | some v =>
      simp only [hl]
      by_cases hv : v ∈ acc
      · rw [if_pos hv]
        by_cases hb : num ≤ acc.length
        · rw [if_pos hb]; exact hnd
        · rw [if_neg hb]; exact ih acc hnd
      · rw [if_neg hv]
        have hnd' := nodup_append_single acc v hnd hv
        by_cases hb : num ≤ (acc ++ [v]).length
        · rw [if_pos hb]; exact hnd'
        · rw [if_neg hb]; exact ih _ hnd'

/-- For a positive request the collection loop never exceeds the requested
number of words. -/
theorem collectDistractors_length (db : DB) (tl : String) (num : Nat) :
    ∀ (order : List Nat) (acc : List String), acc.length < num →
      (collectDistractors db tl num order acc).length ≤ num := by
  intro order
  induction order with
  | nil =>
    intro acc hlt
    simp only [collectDistractors]
    omega
  | cons g0 rest ih =>
    intro acc hlt
    simp only [collectDistractors]
    cases hl : lookupWord (fetch_group_words db g0) tl with
    | none =>
      simp only [hl]
      by_cases hb : num ≤ acc.length
      · rw [if_pos hb]; omega
      · rw [if_neg hb]; exact ih acc hlt
    | some v =>
      simp only [hl]
      by_cases hv : v ∈ acc
      · rw [if_pos hv]
        by_cases hb : num ≤ acc.length
        · rw [if_pos hb]; omega
        · rw [if_neg hb]; exact ih acc hlt
      · rw [if_neg hv]
        have hlen : (acc ++ [v]).length = acc.length + 1 := by
          simp
        by_cases hb : num ≤ (acc ++ [v]).length
        · rw [if_pos hb]; omega
        · rw [if_neg hb]
          apply ih
          omega

/-- When the whole pool holds fewer distinct target-language words than
requested, the collection loop picks up every one of them. -/
theorem collectDistractors_complete (db : DB) (tl : String) (num : Nat) :
    ∀ (order : List Nat) (acc : List String), acc.Nodup →
      (acc ++ order.filterMap
        (fun g => lookupWord (fetch_group_words db g) tl)).toFinset.card < num →
      ∀ w ∈ order.filterMap (fun g => lookupWord (fetch_group_words db g) tl),
        w ∈ collectDistractors db tl num order acc := by
  intro order
  induction order with
  | nil =>
    intro acc _ _ w hw
    simp at hw
  | cons g0 rest ih =>
    intro acc hnd hcard w hw
    simp only [collectDistractors]
    cases hl : lookupWord (fetch_group_words db g0) tl with
    | none =>
      simp only [List.filterMap_cons, hl] at hw hcard
      simp only [hl]
      have hacc : acc.length < num := by
        refine nodup_length_lt_of_subset num acc _ hnd ?_ hcard
        intro x hx
        exact List.mem_append_left _ hx
      rw [if_neg (by omega)]
      exact ih acc hnd hcard w hw
    | some v =>
      simp only [List.filterMap_cons, hl] at hw hcard
      simp only [hl]
      have hvbig : v ∈ acc ++ v :: rest.filterMap
          (fun g => lookupWord (fetch_group_words db g) tl) :=
        List.mem_append_right _ (List.mem_cons_self _ _)
      by_cases hv : v ∈ acc
      · -- duplicate: the accumulator is unchanged
        have hacc : acc.length < num := by
          refine nodup_length_lt_of_subset num acc _ hnd ?_ hcard
          intro x hx
          exact List.mem_append_left _ hx
        rw [if_pos hv, if_neg (by omega)]
        have hcard' : (acc ++ rest.filterMap
            (fun g => lookupWord (fetch_group_words db g) tl)).toFinset.card
            < num := by
          refine lt_of_le_of_lt (toFinset_card_le_of_subset _ _ ?_) hcard
          intro x hx
          rcases List.mem_append.mp hx with h | h
          · exact List.mem_append_left _ h
          · exact List.mem_append_right _ (List.mem_cons_of_mem _ h)
        rcases List.mem_cons.mp hw with rfl | hw'
        · exact collectDistractors_mono db tl num rest acc w hv
        · exact ih acc hnd hcard' w hw'
      · -- fresh word: appended to the accumulator
        have hnd' := nodup_append_single acc v hnd hv
        have hsub : ∀ x ∈ acc ++ [v], x ∈ acc ++ v :: rest.filterMap
            (fun g => lookupWord (fetch_group_words db g) tl) := by
          intro x hx
          rcases List.mem_append.mp hx with h | h
          · exact List.mem_append_left _ h
          · rw [List.mem_singleton] at h
            exact h ▸ hvbig
        have hacc' : (acc ++ [v]).length < num :=
          nodup_length_lt_of_subset num _ _ hnd' hsub hcard
        rw [if_neg hv, if_neg (by omega)]
        have hcard' : ((acc ++ [v]) ++ rest.filterMap
            (fun g => lookupWord (fetch_group_words db g) tl)).toFinset.card
            < num := by
          refine lt_of_le_of_lt (toFinset_card_le_of_subset _ _ ?_) hcard
          intro x hx
          rcases List.mem_append.mp hx with h | h
          · exact hsub x h
          · exact List.mem_append_right _ (List.mem_cons_of_mem _ h)
        rcases List.mem_cons.mp hw with rfl | hw'
        · exact collectDistractors_mono db tl num rest _ w
            (List.mem_append_right _ (List.mem_singleton.mpr rfl))
        · exact ih _ hnd' hcard' w hw'

end DistractorLemmas

/-- Counterexample to C8 as stated: with `num_choices = 0` the loop appends
a word before checking the bound (`if len(distractors) >= num_choices:
break` runs after the append), so it returns one word — more than
`num_choices`. -/
theorem distractors_counterexample :
    get_distractors dbEmptyWord 1 2 ("en") 0 id = [("dog" : String)] ∧
    ¬((get_distractors dbEmptyWord 1 2 ("en") 0 id).length ≤ 0) := by
  constructor
  · rfl
  · decide

/-- C8 as amended: for every `num_choices ≥ 1`, `get_distractors` returns at
most `num_choices` pairwise-distinct words, each the target-language word of
a non-excluded group of the set, and when the set holds fewer than
`num_choices` distinct such words every available distinct word is returned.
(The function is total — it never raises; with `num_choices = 0` it can
return one word.) -/
theorem distractors_spec (db : DB) (set_id exclude_group_id : Nat)
    (target_language : String) (num_choices : Nat)
    (shuffle : List Nat → List Nat) (hnum : 1 ≤ num_choices)
    (hshuffle : (shuffle ((fetch_set_group_ids db set_id).filter
      (fun g => decide (g ≠ exclude_group_id)))).Perm
      ((fetch_set_group_ids db set_id).filter
        (fun g => decide (g ≠ exclude_group_id)))) :
    (get_distractors db set_id exclude_group_id target_language num_choices
      shuffle).length ≤ num_choices ∧
    (get_distractors db set_id exclude_group_id target_language num_choices
      shuffle).Nodup ∧
    (∀ w ∈ get_distractors db set_id exclude_group_id target_language
        num_choices shuffle,
      ∃ g, g ∈ fetch_set_group_ids db set_id ∧ g ≠ exclude_group_id ∧
        lookupWord (fetch_group_words db g) target_language = some w) ∧
    ((((fetch_set_group_ids db set_id).filter
        (fun g => decide (g ≠ exclude_group_id))).filterMap
        (fun g => lookupWord (fetch_group_words db g)
          target_language)).dedup.length < num_choices →
      ∀ w, (∃ g, g ∈ fetch_set_group_ids db set_id ∧ g ≠ exclude_group_id ∧
          lookupWord (fetch_group_words db g) target_language = some w) →
        w ∈ get_distractors db set_id exclude_group_id target_language
          num_choices shuffle) := by
  have hz : ([] : List String).length < num_choices := by
    simpa using hnum
  refine ⟨?_, ?_, ?_, ?_⟩
  · simp only [get_distractors]
    exact collectDistractors_length db target_language num_choices _ [] hz
  · simp only [get_distractors]
    exact collectDistractors_nodup db target_language num_choices _ []
      List.nodup_nil
  · intro w hw
    simp only [get_distractors] at hw
    rcases collectDistractors_source db target_language num_choices _ [] w hw
      with h | ⟨g, hg, hgw⟩
    · simp at h
    · have hg' := hshuffle.mem_iff.mp hg
      simp only [List.mem_filter, decide_eq_true_eq] at hg'
      exact ⟨g, hg'.1, hg'.2, hgw⟩
  · intro hsmall w hex
    obtain ⟨g, hgs, hgne, hgw⟩ := hex
    have hgc : g ∈ (fetch_set_group_ids db set_id).filter
        (fun g => decide (g ≠ exclude_group_id)) := by
      simp only [List.mem_filter, decide_eq_true_eq]
      exact ⟨hgs, hgne⟩
    have hwm : w ∈ ((fetch_set_group_ids db set_id).filter
        (fun g => decide (g ≠ exclude_group_id))).filterMap
        (fun g => lookupWord (fetch_group_words db g) target_language) :=
      List.mem_filterMap.mpr ⟨g, hgc, hgw⟩
    have hperm := hshuffle.filterMap
      (fun g => lookupWord (fetch_group_words db g) target_language)
    have hwm' : w ∈ (shuffle ((fetch_set_group_ids db set_id).filter
        (fun g => decide (g ≠ exclude_group_id)))).filterMap
        (fun g => lookupWord (fetch_group_words db g) target_language) :=
      hperm.mem_iff.mpr hwm
    have hcard : (([] : List String) ++ (shuffle
        ((fetch_set_group_ids db set_id).filter
          (fun g => decide (g ≠ exclude_group_id)))).filterMap
        (fun g => lookupWord (fetch_group_words db g)
          target_language)).toFinset.card < num_choices := by
      rw [List.nil_append, List.card_toFinset]
      rw [hperm.dedup.length_eq]
      exact hsmall
    simp only [get_distractors]
    exact collectDistractors_complete db target_language num_choices _ []
      List.nodup_nil hcard w hwm'

/-- Witness for C8 (amended): on `dbDupWord` (groups 1 and 2, group 1
excluded) a request for 3 distractors returns at most 3 pairwise-distinct
words. -/
theorem distractors_spec_witness :
    (get_distractors dbDupWord 1 1 ("en") 3 id).length ≤ 3 ∧
    (get_distractors dbDupWord 1 1 ("en") 3 id).Nodup := by
  have h := distractors_spec dbDupWord 1 1 ("en") 3 id (by omega) (by decide)
  exact ⟨h.1, h.2.1⟩

end Vocabulator
